import Mathlib

/-!
Shallow embedding of the AQI-IN cleaning pipeline (`clean_data.py` and
`daily_station_timeseries.py`).

A numeric statistic column of the table is modelled as a list of
`(date, cell)` pairs, where the date (the row key after `set_index`) is an
integer day number and a cell is `Option ℚ` (`none` is pandas `NaN`).
Each of the ten statistic columns (`value`, `summary.min`, …, `summary.sd`)
is processed independently and identically by the source, so one column
model covers them all.
-/

namespace AQI

/-- Embedding of `clean_data.py` line 60,
`df[aqi_columns].where(df[aqi_columns] >= 0, np.nan)`, at one cell:
an entry `< 0` becomes `NaN`; a `NaN` cell fails the `>= 0` test and is
replaced by `NaN` again, i.e. it is unchanged. -/
def sanitizeCell : Option ℚ → Option ℚ
  | none => none
  | some v => if 0 ≤ v then some v else none

/-- Sanitization of a whole keyed column (the `ValueSanitizer` step). -/
def sanitizeSeries (l : List (ℤ × Option ℚ)) : List (ℤ × Option ℚ) :=
  l.map (fun p => (p.1, sanitizeCell p.2))

/-- Sanitization of an unkeyed column, as used for the logging count. -/
def sanitizeColumn (col : List (Option ℚ)) : List (Option ℚ) :=
  col.map sanitizeCell

/-- Embedding of `(df[col] < 0).sum()`: the number of cells that hold a
negative value (`NaN < 0` is false in pandas, so `none` does not count). -/
def negCount (col : List (Option ℚ)) : ℕ :=
  col.countP (fun x => match x with | some v => decide (v < 0) | none => false)

/-- Embedding of `clean_data.py` lines 62-64: the count that is logged as
"negatives replaced" is computed on the dataframe AFTER line 60 has already
replaced the negatives, so it is `negCount` of the sanitized column. -/
def loggedNegCount (col : List (Option ℚ)) : ℕ :=
  negCount (sanitizeColumn col)

/-- The valid (non-missing) points of a column, in stored row order: the
`(index[valid], values[valid])` pair lists that pandas hands to `np.interp`. -/
def validPts (l : List (ℤ × Option ℚ)) : List (ℤ × ℚ) :=
  l.filterMap (fun p => p.2.map (fun v => (p.1, v)))

/-- Embedding of `np.interp t xp fp` walking the knot list: below the first
knot it clamps to the first value, above the last knot to the last value, and
between two consecutive knots it interpolates linearly in the key (for a
`DatetimeIndex`, linearly in elapsed time — `method='time'`). -/
def npInterpAux (t : ℤ) (p : ℤ × ℚ) : List (ℤ × ℚ) → ℚ
  | [] => p.2
  | q :: rest =>
      if t ≤ p.1 then p.2
      else if t ≤ q.1 then
        p.2 + (q.2 - p.2) * (((t : ℚ) - (p.1 : ℚ)) / ((q.1 : ℚ) - (p.1 : ℚ)))
      else npInterpAux t q rest

/-- Total wrapper for `npInterpAux`: with no valid points there is nothing to
interpolate from. -/
def npInterp (t : ℤ) : List (ℤ × ℚ) → Option ℚ
  | [] => none
  | p :: rest => some (npInterpAux t p rest)

/-- One pass over the column for `Series.interpolate(method='time')` with the
default `limit_direction='forward'`: pandas first computes `np.interp` at
every missing position and then restores `NaN` at the missing positions that
lie before the first valid position (`preserve_nans`).  The boolean argument
records whether a valid cell has been seen at an earlier position. -/
def interpGo (pts : List (ℤ × ℚ)) : Bool → List (ℤ × Option ℚ) → List (ℤ × Option ℚ)
  | _, [] => []
  | _, (t, some v) :: rest => (t, some v) :: interpGo pts true rest
  | seen, (t, none) :: rest =>
      (t, if seen then npInterp t pts else none) :: interpGo pts seen rest

/-- Embedding of `s.interpolate(method='time')` on one keyed column
(`clean_data.py` line 67 and `daily_station_timeseries.py` line 42). -/
def seriesInterpolate (l : List (ℤ × Option ℚ)) : List (ℤ × Option ℚ) :=
  interpGo (validPts l) false l

/-- a cell is acceptable when it is missing or holds a non-negative value. -/
def nonnegOrMissing : Option ℚ → Prop
  | none => True
  | some v => 0 ≤ v

instance (x : Option ℚ) : Decidable (nonnegOrMissing x) := by
  cases x with
  | none => exact isTrue trivial
  | some v => exact inferInstanceAs (Decidable (0 ≤ v))

lemma sanitizeCell_eq_some {x : Option ℚ} {v : ℚ} (h : sanitizeCell x = some v) : 0 ≤ v := by
  cases x with
  | none => simp [sanitizeCell] at h
  | some w =>
      by_cases hw : 0 ≤ w
      · simp only [sanitizeCell, if_pos hw, Option.some.injEq] at h
        exact h ▸ hw
      · simp [sanitizeCell, hw] at h

lemma interpGo_map_fst (pts : List (ℤ × ℚ)) (s : Bool) (l : List (ℤ × Option ℚ)) :
    (interpGo pts s l).map Prod.fst = l.map Prod.fst := by
  induction l generalizing s with
  | nil => simp [interpGo]
  | cons p rest ih =>
      obtain ⟨t, v⟩ := p
      cases v <;> simp [interpGo, ih]

lemma interpGo_length (pts : List (ℤ × ℚ)) (s : Bool) (l : List (ℤ × Option ℚ)) :
    (interpGo pts s l).length = l.length := by
  have h := congrArg List.length (interpGo_map_fst pts s l)
  simpa using h

lemma interpGo_append (pts : List (ℤ × ℚ)) (s : Bool) (xs ys : List (ℤ × Option ℚ)) :
    interpGo pts s (xs ++ ys)
      = interpGo pts s xs ++ interpGo pts (s || xs.any (fun p => p.2.isSome)) ys := by
  induction xs generalizing s with
  | nil => simp [interpGo]
  | cons p rest ih =>
      obtain ⟨t, v⟩ := p
      cases v with
      | none => simp [interpGo, ih]
      | some w => simp [interpGo, ih]

lemma validPts_append (xs ys : List (ℤ × Option ℚ)) :
    validPts (xs ++ ys) = validPts xs ++ validPts ys := by
  simp [validPts]

lemma any_isSome_of_validPts_ne_nil {xs : List (ℤ × Option ℚ)} (h : validPts xs ≠ []) :
    xs.any (fun p => p.2.isSome) = true := by
  induction xs with
  | nil => simp [validPts] at h
  | cons p rest ih =>
      obtain ⟨t, v⟩ := p
      cases v with
      | none =>
          simp only [validPts, List.filterMap_cons, Option.map_none'] at h
          simpa using ih h
      | some w => simp

lemma mem_of_mem_validPts {l : List (ℤ × Option ℚ)} {p : ℤ × ℚ}
    (h : p ∈ validPts l) : (p.1, some p.2) ∈ l := by
  rw [validPts, List.mem_filterMap] at h
  obtain ⟨a, ha, hfa⟩ := h
  obtain ⟨t, v⟩ := a
  cases v with
  | none => simp at hfa
  | some w =>
      simp only [Option.map_some', Option.some.injEq] at hfa
      subst hfa
      simpa using ha

lemma npInterpAux_skip (t : ℤ) (rest : List (ℤ × ℚ)) :
    ∀ (A : List (ℤ × ℚ)) (p : ℤ × ℚ), p.1 < t → (∀ a ∈ A, a.1 < t) →
      npInterpAux t p (A ++ rest) = npInterpAux t ((p :: A).getLast (by simp)) rest := by
  intro A
  induction A with
  | nil => intro p _ _; simp
  | cons b A' ih =>
      intro p hp hA
      have hb : b.1 < t := hA b (by simp)
      have h1 : ¬ t ≤ p.1 := not_le.mpr hp
      have h2 : ¬ t ≤ b.1 := not_le.mpr hb
      have hgl : (p :: b :: A').getLast (by simp) = (b :: A').getLast (by simp) :=
        List.getLast_cons (by simp)
      rw [hgl]
      calc npInterpAux t p ((b :: A') ++ rest)
          = npInterpAux t b (A' ++ rest) := by
            simp [npInterpAux, h1, h2]
        _ = npInterpAux t ((b :: A').getLast (by simp)) rest := by
            exact ih b hb (fun a ha => hA a (by simp [ha]))

lemma npInterp_between (t t1 t2 : ℤ) (v1 v2 : ℚ) (A B : List (ℤ × ℚ))
    (hA : ∀ a ∈ A, a.1 < t) (h1 : t1 < t) (h2 : t ≤ t2) :
    npInterp t (A ++ (t1, v1) :: (t2, v2) :: B)
      = some (v1 + (v2 - v1) * (((t : ℚ) - (t1 : ℚ)) / ((t2 : ℚ) - (t1 : ℚ)))) := by
  have hbase : npInterpAux t (t1, v1) ((t2, v2) :: B)
      = v1 + (v2 - v1) * (((t : ℚ) - (t1 : ℚ)) / ((t2 : ℚ) - (t1 : ℚ))) := by
    simp [npInterpAux, not_le.mpr h1, h2]
  cases A with
  | nil => simp [npInterp, hbase]
  | cons a A' =>
      have ha : a.1 < t := hA a (by simp)
      have hsk := npInterpAux_skip t ((t2, v2) :: B) (A' ++ [(t1, v1)]) a ha
        (by
          intro x hx
          rcases List.mem_append.mp hx with hx' | hx'
          · exact hA x (by simp [hx'])
          · simp only [List.mem_singleton] at hx'
            subst hx'
            exact h1)
      have hlast : ((a :: (A' ++ [(t1, v1)])).getLast (by simp)) = (t1, v1) := by
        rw [List.getLast_cons (by simp)]
        exact List.getLast_append _
      have hl : (a :: A') ++ (t1, v1) :: (t2, v2) :: B
          = a :: ((A' ++ [(t1, v1)]) ++ (t2, v2) :: B) := by
        simp
      rw [hl]
      simp only [npInterp]
      rw [hsk, hlast, hbase]

lemma npInterp_clamp_right (t : ℤ) (A : List (ℤ × ℚ)) (tl : ℤ) (vl : ℚ)
    (hA : ∀ a ∈ A, a.1 < t) (hl : tl < t) :
    npInterp t (A ++ [(tl, vl)]) = some vl := by
  cases A with
  | nil => simp [npInterp, npInterpAux]
  | cons a A' =>
      have ha : a.1 < t := hA a (by simp)
      have hsk := npInterpAux_skip t [] (A' ++ [(tl, vl)]) a ha
        (by
          intro x hx
          rcases List.mem_append.mp hx with hx' | hx'
          · exact hA x (by simp [hx'])
          · simp only [List.mem_singleton] at hx'
            subst hx'
            exact hl)
      have hlast : ((a :: (A' ++ [(tl, vl)])).getLast (by simp)) = (tl, vl) := by
        rw [List.getLast_cons (by simp)]
        exact List.getLast_append _
      have hl2 : (a :: A') ++ [(tl, vl)] = a :: ((A' ++ [(tl, vl)]) ++ []) := by simp
      rw [hl2]
      simp only [npInterp]
      rw [hsk, hlast]
      simp [npInterpAux]

lemma npInterp_isSome {pts : List (ℤ × ℚ)} (h : pts ≠ []) (t : ℤ) :
    ∃ w, npInterp t pts = some w := by
  cases pts with
  | nil => exact absurd rfl h
  | cons p rest => exact ⟨npInterpAux t p rest, rfl⟩

lemma npInterpAux_nonneg (t : ℤ) :
    ∀ (rest : List (ℤ × ℚ)) (p : ℤ × ℚ), 0 ≤ p.2 → (∀ q ∈ rest, 0 ≤ q.2) →
      0 ≤ npInterpAux t p rest := by
  intro rest
  induction rest with
  | nil => intro p hp _; simpa [npInterpAux] using hp
  | cons q rest' ih =>
      intro p hp hq
      by_cases h1 : t ≤ p.1
      · simpa [npInterpAux, h1] using hp
      · by_cases h2 : t ≤ q.1
        · have hq2 : 0 ≤ q.2 := hq q (by simp)
          simp only [npInterpAux, h1, h2, if_false, if_true]
          have hp1t : (p.1 : ℚ) < (t : ℚ) := by exact_mod_cast not_le.mp h1
          have htq1 : (t : ℚ) ≤ (q.1 : ℚ) := by exact_mod_cast h2
          have hd : (0 : ℚ) < (q.1 : ℚ) - (p.1 : ℚ) := by linarith
          have hn0 : (0 : ℚ) ≤ ((t : ℚ) - (p.1 : ℚ)) / ((q.1 : ℚ) - (p.1 : ℚ)) :=
            div_nonneg (by linarith) (le_of_lt hd)
          have hn1 : ((t : ℚ) - (p.1 : ℚ)) / ((q.1 : ℚ) - (p.1 : ℚ)) ≤ 1 := by
            rw [div_le_one hd]; linarith
          nlinarith [mul_nonneg hq2 hn0, mul_nonneg hp (sub_nonneg.mpr hn1)]
        · simp only [npInterpAux, h1, h2, if_false]
          exact ih q (hq q (by simp)) (fun r hr => hq r (by simp [hr]))

lemma npInterp_nonneg {pts : List (ℤ × ℚ)} (h : ∀ q ∈ pts, 0 ≤ q.2) (t : ℤ) {w : ℚ}
    (hw : npInterp t pts = some w) : 0 ≤ w := by
  cases pts with
  | nil => simp [npInterp] at hw
  | cons p rest =>
      simp only [npInterp, Option.some.injEq] at hw
      subst hw
      exact npInterpAux_nonneg t rest p (h p (by simp)) (fun q hq => h q (by simp [hq]))

lemma interpGo_of_validPts_nil (pts2 : List (ℤ × ℚ)) :
    ∀ xs : List (ℤ × Option ℚ), validPts xs = [] → interpGo pts2 false xs = xs := by
  intro xs
  induction xs with
  | nil => intro _; rfl
  | cons p rest ih =>
      intro h
      obtain ⟨t, v⟩ := p
      cases v with
      | none =>
          simp only [validPts, List.filterMap_cons, Option.map_none'] at h
          simp [interpGo, ih h]
      | some w => simp [validPts, List.filterMap_cons] at h

lemma interpGo_idem (pts pts2 : List (ℤ × ℚ)) (hpts : pts ≠ []) :
    ∀ (s : Bool) (xs : List (ℤ × Option ℚ)),
      interpGo pts2 s (interpGo pts s xs) = interpGo pts s xs := by
  intro s xs
  induction xs generalizing s with
  | nil => rfl
  | cons p rest ih =>
      obtain ⟨t, v⟩ := p
      cases v with
      | some w => simp [interpGo, ih true]
      | none =>
          cases s with
          | false => simp [interpGo, ih false]
          | true =>
              obtain ⟨w, hw⟩ := npInterp_isSome hpts t
              simp [interpGo, hw, ih true]

lemma validPts_sanitize_nonneg (l : List (ℤ × Option ℚ)) :
    ∀ q ∈ validPts (sanitizeSeries l), 0 ≤ q.2 := by
  intro q hq
  have hm := mem_of_mem_validPts hq
  rw [sanitizeSeries, List.mem_map] at hm
  obtain ⟨r, _, hr⟩ := hm
  have : sanitizeCell r.2 = some q.2 := congrArg Prod.snd hr
  exact sanitizeCell_eq_some this

lemma interpGo_nonneg (pts : List (ℤ × ℚ)) (hp : ∀ q ∈ pts, 0 ≤ q.2) :
    ∀ (s : Bool) (xs : List (ℤ × Option ℚ)), (∀ q ∈ xs, nonnegOrMissing q.2) →
      ∀ p ∈ interpGo pts s xs, nonnegOrMissing p.2 := by
  intro s xs
  induction xs generalizing s with
  | nil => intro _ p hp'; simp [interpGo] at hp'
  | cons x rest ih =>
      intro hx p hp'
      obtain ⟨t, v⟩ := x
      cases v with
      | some w =>
          simp only [interpGo, List.mem_cons] at hp'
          rcases hp' with rfl | hp'
          · exact hx (t, some w) (by simp)
          · exact ih true (fun q hq => hx q (by simp [hq])) p hp'
      | none =>
          simp only [interpGo, List.mem_cons] at hp'
          rcases hp' with rfl | hp'
          · cases s with
            | false => simp [nonnegOrMissing]
            | true =>
                simp only
                cases hnp : npInterp t pts with
                | none => simp [hnp, nonnegOrMissing]
                | some w =>
                    exact npInterp_nonneg hp t hnp
          · exact ih s (fun q hq => hx q (by simp [hq])) p hp'

/-!
Per-station processing, `daily_station_timeseries.py` (`split_by_station`).
One station's data for one numeric column is a list of `(to_local_date, cell)`
pairs (the function indexes by `to_local_date`, line 27).
-/

/-- Embedding of pandas `.mean()` with the default `skipna=True`: the mean of
the present values, or `NaN` when every value is missing. -/
def meanSkipNA (cells : List (Option ℚ)) : Option ℚ :=
  let vs := cells.filterMap id
  if vs.isEmpty then none else some (vs.sum / (vs.length : ℚ))

/-- the non-missing values a station records for day `d` in one column. -/
def presentValues (rows : List (ℤ × Option ℚ)) (d : ℤ) : List ℚ :=
  rows.filterMap (fun p => if p.1 = d then p.2 else none)

/-- the distinct dates of the rows, ascending: the index that pandas
`groupby(df_station.index)` produces (group keys are sorted by default). -/
def sortedUniqueDates (rows : List (ℤ × Option ℚ)) : List ℤ :=
  List.insertionSort (· ≤ ·) (rows.map Prod.fst).dedup

/-- Embedding of `daily_station_timeseries.py` line 30,
`df_station.groupby(df_station.index).mean(numeric_only=True)`: one output row
per distinct date, holding the skip-missing mean of that date's cells. -/
def dedupByDate (rows : List (ℤ × Option ℚ)) : List (ℤ × Option ℚ) :=
  (sortedUniqueDates rows).map
    (fun d => (d, meanSkipNA (rows.filterMap (fun p => if p.1 = d then some p.2 else none))))

/-- reindex lookup: the cell stored at date `d`, or `NaN` when `d` is absent. -/
def lookupDate (d : ℤ) (l : List (ℤ × Option ℚ)) : Option ℚ :=
  match l.find? (fun p => p.1 == d) with
  | some p => p.2
  | none => none

/-- Embedding of `daily_station_timeseries.py` line 33, `asfreq("D")`:
reindex onto `date_range(index[0], index[-1], freq="D")` — every calendar day
from the first to the last index entry, missing days becoming `NaN` rows. -/
def asfreqD (l : List (ℤ × Option ℚ)) : List (ℤ × Option ℚ) :=
  match l.head?, l.getLast? with
  | some p0, some p1 =>
      if p0.1 ≤ p1.1 then
        (List.range (p1.1 - p0.1 + 1).toNat).map
          (fun (i : ℕ) => (p0.1 + (i : ℤ), lookupDate (p0.1 + (i : ℤ)) l))
      else []
  | _, _ => []

/-- the per-station pipeline of `split_by_station` for one numeric column:
dedup by date (line 30), densify to daily frequency (line 33), then the same
time-weighted interpolation as the global step (lines 40-42). -/
def split_by_station_col (rows : List (ℤ × Option ℚ)) : List (ℤ × Option ℚ) :=
  seriesInterpolate (asfreqD (dedupByDate rows))

/-!
Merge step, `clean_data.py` line 79:
`pd.merge(df_raw, df_locations, left_on='sensor_id', right_on='s_id', how='left')`.
A measurement row carries its join key and its payload (the `value` cell stands
in for the measurement columns); a location row carries its key and the
metadata payload.
-/

/-- one row of the raw measurement table, keyed by `sensor_id`. -/
structure MeasRow where
  sensor_id : ℤ
  value : Option ℚ
deriving DecidableEq

/-- one row of the locations table, keyed by `s_id`. -/
structure LocRow where
  s_id : ℤ
  station_id : ℤ
  station_name : Option String
  locality : Option String
deriving DecidableEq

/-- Embedding of the left merge: each left row is paired, in order, with
every right row whose `s_id` equals its `sensor_id`, and with no metadata
(`none`, i.e. all-null metadata columns) when no right row matches. -/
def leftMerge (L : List MeasRow) (R : List LocRow) : List (MeasRow × Option LocRow) :=
  L.flatMap (fun m =>
    match R.filter (fun r => r.s_id == m.sensor_id) with
    | [] => [(m, none)]
    | ms => ms.map (fun r => (m, some r)))

/-!
Output schemas, `clean_data.py` lines 107-121.  The pre-interpolation artifact
is `df_analysis[final_cols]` written with `index=False` (line 117); the final
artifact is written after `interpolate_openaq_data` has moved `from_local_date`
into the index (line 57), and its `to_csv` call also passes `index=False`
(line 121), so the index — and with it the `from_local_date` column — is NOT
written to the final artifact.
-/

/-- the `final_cols` projection of `clean_data.py` lines 107-113. -/
def final_cols : List String :=
  ["value", "sensor_id", "summary.min", "summary.q02", "summary.q25",
   "summary.median", "summary.q75", "summary.q98", "summary.max",
   "summary.avg", "summary.sd", "from_utc_date", "from_local_date",
   "to_utc_date", "to_local_date", "parameter",
   "provider.id", "provider.name", "id", "name", "locality"]

/-- columns of `cleaned_openaq_not_interpolated.csv` (line 117, `index=False`). -/
def preInterpArtifactCols : List String := final_cols

/-- columns of `cleaned_openaq.csv` (line 121, `index=False`): the data
columns only — `from_local_date` became the index at line 57 and is dropped
by the `index=False` write. -/
def finalArtifactCols : List String :=
  final_cols.erase "from_local_date"

/-!
Global interpolation step, `clean_data.py` `interpolate_openaq_data`, viewed
through one statistic column: line 56-57 turn `from_local_date` into the row
key, line 60 sanitizes, line 67 interpolates.
-/

/-- a row of the analysis table as `interpolate_openaq_data` sees it, reduced
to the date field and one statistic column. -/
structure SRow where
  from_local_date : ℤ
  value : Option ℚ
deriving DecidableEq

/-- Embedding of `clean_data.py` line 57, `df.set_index("from_local_date")`:
the date field becomes the row key; the stored row order is untouched. -/
def set_index_from_local_date (rows : List SRow) : List (ℤ × Option ℚ) :=
  rows.map (fun r => (r.from_local_date, r.value))

/-- Embedding of `interpolate_openaq_data` on one statistic column:
set the index (line 57), replace negatives by `NaN` (line 60), interpolate
(line 67). -/
def interpolate_openaq_data_col (rows : List SRow) : List (ℤ × Option ℚ) :=
  seriesInterpolate (sanitizeSeries (set_index_from_local_date rows))

/-! Helper lemmas for the claim theorems. -/

lemma any_isSome_eq_false {xs : List (ℤ × Option ℚ)} (h : validPts xs = []) :
    xs.any (fun p => p.2.isSome) = false := by
  induction xs with
  | nil => rfl
  | cons p rest ih =>
      obtain ⟨t, v⟩ := p
      cases v with
      | none =>
          simp only [validPts, List.filterMap_cons, Option.map_none'] at h
          simpa using ih h
      | some w => simp [validPts, List.filterMap_cons] at h

lemma validPts_cons_none (t : ℤ) (l : List (ℤ × Option ℚ)) :
    validPts ((t, none) :: l) = validPts l := by
  simp [validPts, List.filterMap_cons]

lemma pairwise_lt_left {l1 l2 : List (ℤ × Option ℚ)} {t : ℤ}
    (hsort : (l1 ++ (t, none) :: l2).Pairwise (fun p q => p.1 < q.1)) :
    ∀ a ∈ validPts l1, a.1 < t := by
  intro a ha
  have hmem := mem_of_mem_validPts ha
  rw [List.pairwise_append] at hsort
  exact hsort.2.2 _ hmem (t, none) (by simp)

/-- C1: a missing entry strictly between two known observations, with no known
value in between, is filled by the global interpolation step with the
time-weighted value `v1 + (v2 - v1) * (t - t1) / (t2 - t1)`. -/
theorem C1_time_weighted_interpolation
    (l1 l2 : List (ℤ × Option ℚ)) (A B : List (ℤ × ℚ))
    (t t1 t2 : ℤ) (v1 v2 : ℚ)
    (hsort : (l1 ++ (t, none) :: l2).Pairwise (fun p q => p.1 < q.1))
    (h1 : validPts l1 = A ++ [(t1, v1)])
    (h2 : validPts l2 = (t2, v2) :: B)
    (ht1 : t1 < t) (ht2 : t < t2) :
    (seriesInterpolate (l1 ++ (t, none) :: l2))[l1.length]?
      = some (t, some (v1 + (v2 - v1) * (((t : ℚ) - (t1 : ℚ)) / ((t2 : ℚ) - (t1 : ℚ))))) := by
  have hvp : validPts (l1 ++ (t, none) :: l2) = A ++ (t1, v1) :: (t2, v2) :: B := by
    rw [validPts_append, h1, validPts_cons_none, h2]
    simp
  have hany : l1.any (fun p => p.2.isSome) = true :=
    any_isSome_of_validPts_ne_nil (by rw [h1]; simp)
  have hA : ∀ a ∈ A, a.1 < t := by
    intro a ha
    exact pairwise_lt_left hsort a (by rw [h1]; exact List.mem_append.mpr (Or.inl ha))
  have hlen : (interpGo (validPts (l1 ++ (t, none) :: l2)) false l1).length = l1.length :=
    interpGo_length _ _ _
  rw [seriesInterpolate, interpGo_append, hany,
      List.getElem?_append_right (le_of_eq hlen), hlen, Nat.sub_self]
  simp only [Bool.or_true, interpGo, List.getElem?_cons_zero, if_true]
  rw [hvp, npInterp_between t t1 t2 v1 v2 A B hA ht1 (le_of_lt ht2)]

/-- C1 witness: with `10` at day 1 and `40` at day 4, the missing entry at
day 2 is filled with `20` (time-weighted), not the row-midpoint `25`. -/
theorem C1_witness :
    (seriesInterpolate [((1 : ℤ), some (10 : ℚ)), (2, none), (4, some 40)])[1]?
      = some (2, some 20) ∧ (20 : ℚ) ≠ 25 := by
  constructor
  · have h := C1_time_weighted_interpolation
      [((1 : ℤ), some (10 : ℚ))] [((4 : ℤ), some (40 : ℚ))] [] [] 2 1 4 10 40
      (by decide) rfl rfl (by decide) (by decide)
    norm_num at h
    simpa using h
  · norm_num

/-- C2 counterexample: an entry missing at the end, with a valid observation
before it but none after it, does NOT remain missing: pandas `interpolate`
with the default forward direction fills it with the last valid value. -/
theorem C2_counterexample :
    (seriesInterpolate [((1 : ℤ), some (10 : ℚ)), (2, none)])[1]? = some (2, some 10) := by
  decide

/-- C2 amended: an entry missing at the start of the series, with no valid
observation before it, remains missing after interpolation; an entry missing
at the end, with no valid observation after it, is filled with the last valid
value (held constant), not left missing.  Both interpolation steps use this
same function. -/
theorem C2_amended_extrapolation
    (l1 l2 : List (ℤ × Option ℚ)) (t : ℤ) (A : List (ℤ × ℚ)) (tl : ℤ) (vl : ℚ)
    (hsort : (l1 ++ (t, none) :: l2).Pairwise (fun p q => p.1 < q.1)) :
    (validPts l1 = [] →
      (seriesInterpolate (l1 ++ (t, none) :: l2))[l1.length]? = some (t, none))
    ∧ (validPts l1 = A ++ [(tl, vl)] → validPts l2 = [] →
      (seriesInterpolate (l1 ++ (t, none) :: l2))[l1.length]? = some (t, some vl)) := by
  constructor
  · intro h
    have hany : l1.any (fun p => p.2.isSome) = false := any_isSome_eq_false h
    have hlen : (interpGo (validPts (l1 ++ (t, none) :: l2)) false l1).length = l1.length :=
      interpGo_length _ _ _
    rw [seriesInterpolate, interpGo_append, hany,
        List.getElem?_append_right (le_of_eq hlen), hlen, Nat.sub_self]
    simp [interpGo]
  · intro h1 h2
    have hvp : validPts (l1 ++ (t, none) :: l2) = A ++ [(tl, vl)] := by
      rw [validPts_append, h1, validPts_cons_none, h2]
      simp
    have hany : l1.any (fun p => p.2.isSome) = true :=
      any_isSome_of_validPts_ne_nil (by rw [h1]; simp)
    have hA : ∀ a ∈ A, a.1 < t := by
      intro a ha
      exact pairwise_lt_left hsort a (by rw [h1]; exact List.mem_append.mpr (Or.inl ha))
    have htl : tl < t :=
      pairwise_lt_left hsort (tl, vl) (by rw [h1]; simp)
    have hlen : (interpGo (validPts (l1 ++ (t, none) :: l2)) false l1).length = l1.length :=
      interpGo_length _ _ _
    rw [seriesInterpolate, interpGo_append, hany,
        List.getElem?_append_right (le_of_eq hlen), hlen, Nat.sub_self]
    simp only [Bool.or_true, interpGo, List.getElem?_cons_zero, if_true]
    rw [hvp, npInterp_clamp_right t A tl vl hA htl]

/-- C2 witness: a leading missing entry stays missing; a trailing missing
entry is filled with the last valid value. -/
theorem C2_witness :
    (seriesInterpolate [((1 : ℤ), none), (2, some (5 : ℚ))])[0]? = some (1, none)
    ∧ (seriesInterpolate [((1 : ℤ), some (5 : ℚ)), (2, none)])[1]? = some (2, some 5) := by
  constructor
  · have h := (C2_amended_extrapolation [] [((2 : ℤ), some (5 : ℚ))] 1 [] 0 0 (by decide)).1 rfl
    simpa using h
  · have h := (C2_amended_extrapolation [((1 : ℤ), some (5 : ℚ))] [] 2 [] 1 5 (by decide)).2 rfl rfl
    simpa using h

/-- C4 counterexample: the global interpolation step performs no sort — on an
input whose `from_local_date` values arrive out of order, the row keys of its
output are still out of order (`set_index` keeps the stored row order). -/
theorem C4_counterexample :
    ((interpolate_openaq_data_col [⟨4, some 1⟩, ⟨1, some 2⟩]).map Prod.fst) = [4, 1]
    ∧ ¬ ((interpolate_openaq_data_col [⟨4, some 1⟩, ⟨1, some 2⟩]).map Prod.fst).Sorted (· ≤ ·) := by
  constructor
  · decide
  · decide

/-- C4 amended: the step converts `from_local_date` and sets it as the row
key WITHOUT reordering rows — the output key sequence is exactly the input
`from_local_date` sequence, so interpolation operates on a time-ordered
sequence only when the input rows are already in ascending date order. -/
theorem C4_set_index_preserves_order (rows : List SRow) :
    (interpolate_openaq_data_col rows).map Prod.fst = rows.map SRow.from_local_date := by
  rw [interpolate_openaq_data_col, seriesInterpolate, interpGo_map_fst]
  simp [sanitizeSeries, set_index_from_local_date, List.map_map]

lemma sanitizeCell_idem (x : Option ℚ) : sanitizeCell (sanitizeCell x) = sanitizeCell x := by
  cases x with
  | none => rfl
  | some v =>
      by_cases hv : 0 ≤ v
      · simp [sanitizeCell, hv]
      · simp [sanitizeCell, hv]

/-- C9: the sanitization step is idempotent (no negatives remain to replace),
and the global interpolation step is idempotent (every fillable entry is
already filled, and the remaining missing entries stay missing). -/
theorem C9_idempotence :
    (∀ l : List (ℤ × Option ℚ), sanitizeSeries (sanitizeSeries l) = sanitizeSeries l)
    ∧ (∀ l : List (ℤ × Option ℚ), seriesInterpolate (seriesInterpolate l) = seriesInterpolate l) := by
  constructor
  · intro l
    rw [sanitizeSeries, sanitizeSeries, List.map_map]
    apply List.map_congr_left
    intro p _
    simp [sanitizeCell_idem]
  · intro l
    by_cases h : validPts l = []
    · have hl : seriesInterpolate l = l := interpGo_of_validPts_nil _ l h
      rw [hl]
      exact hl
    · simp only [seriesInterpolate]
      exact interpGo_idem (validPts l) _ h false l

lemma nonnegOrMissing_sanitizeCell (x : Option ℚ) : nonnegOrMissing (sanitizeCell x) := by
  cases hx : sanitizeCell x with
  | none => trivial
  | some v => exact sanitizeCell_eq_some hx

/-- C5: after sanitization every statistic cell is missing or non-negative,
cells that were already missing or non-negative pass through sanitization
unchanged, and the final interpolated output still contains only missing or
non-negative cells.  The ten statistic columns are all processed by this one
column pipeline. -/
theorem C5_no_negatives (l : List (ℤ × Option ℚ)) (rows : List SRow) :
    (∀ p ∈ sanitizeSeries l, nonnegOrMissing p.2)
    ∧ (∀ p ∈ l, nonnegOrMissing p.2 → sanitizeCell p.2 = p.2)
    ∧ (∀ p ∈ interpolate_openaq_data_col rows, nonnegOrMissing p.2) := by
  refine ⟨?_, ?_, ?_⟩
  · intro p hp
    rw [sanitizeSeries, List.mem_map] at hp
    obtain ⟨q, _, rfl⟩ := hp
    exact nonnegOrMissing_sanitizeCell q.2
  · intro p _ hnn
    cases hp2 : p.2 with
    | none => rfl
    | some v =>
        have hv : 0 ≤ v := by rw [hp2] at hnn; exact hnn
        simp [sanitizeCell, hv]
  · intro p hp
    rw [interpolate_openaq_data_col, seriesInterpolate] at hp
    refine interpGo_nonneg _ (validPts_sanitize_nonneg _) false _ ?_ p hp
    intro q hq
    rw [sanitizeSeries, List.mem_map] at hq
    obtain ⟨r, _, rfl⟩ := hq
    exact nonnegOrMissing_sanitizeCell r.2

/-- C5 witness: a negative cell (`-3`) is replaced by the missing marker, and
a non-negative cell (`5`) survives to the interpolated output. -/
theorem C5_witness :
    ((2 : ℤ), (some (5 : ℚ) : Option ℚ))
        ∈ interpolate_openaq_data_col [⟨1, some (-3)⟩, ⟨2, some 5⟩]
    ∧ nonnegOrMissing (some (5 : ℚ)) := by
  refine ⟨by decide, ?_⟩
  exact (C5_no_negatives [] [⟨1, some (-3)⟩, ⟨2, some 5⟩]).2.2
    ((2 : ℤ), some (5 : ℚ)) (by decide)

lemma loggedNegCount_eq_zero (col : List (Option ℚ)) : loggedNegCount col = 0 := by
  rw [loggedNegCount, negCount, sanitizeColumn, List.countP_eq_zero]
  intro x hx
  rw [List.mem_map] at hx
  obtain ⟨y, _, rfl⟩ := hx
  cases hy : sanitizeCell y with
  | none => simp
  | some v =>
      have hv : 0 ≤ v := sanitizeCell_eq_some hy
      simp only [hy]
      simpa using not_lt.mpr hv

/-- C6: the count emitted by the observability hook is computed AFTER the
negatives have already been replaced (`clean_data.py` line 60 runs before
lines 62-64), so the logged count is always `0` — here an input column with
one negative entry logs `0` even though one replacement was performed. -/
theorem C6_logged_count_always_zero :
    loggedNegCount [some (-5 : ℚ)] = 0
    ∧ negCount [some (-5 : ℚ)] = 1
    ∧ ∀ col : List (Option ℚ), loggedNegCount col = 0 := by
  refine ⟨loggedNegCount_eq_zero _, by decide, loggedNegCount_eq_zero⟩

/-- C8 counterexample: the two written artifacts do NOT share the same column
projection — `from_local_date` is a column of the pre-interpolation artifact
but, having been moved into the index (line 57) and dropped by the
`index=False` write (line 121), is absent from the final artifact. -/
theorem C8_counterexample :
    "from_local_date" ∈ preInterpArtifactCols
    ∧ "from_local_date" ∉ finalArtifactCols := by
  constructor
  · simp [preInterpArtifactCols, final_cols]
  · decide

/-- C8 amended: the final interpolated artifact exposes the analysis-relevant
projection minus `from_local_date`: every one of its 20 columns appears in the
21-column pre-interpolation artifact, but `from_local_date` appears only in
the pre-interpolation artifact. -/
theorem C8_schema_minus_index :
    (∀ c ∈ finalArtifactCols, c ∈ preInterpArtifactCols)
    ∧ "from_local_date" ∈ preInterpArtifactCols
    ∧ "from_local_date" ∉ finalArtifactCols
    ∧ preInterpArtifactCols.length = 21
    ∧ finalArtifactCols.length = 20 := by
  refine ⟨?_, by simp [preInterpArtifactCols, final_cols], by decide, by decide, by decide⟩
  intro c hc
  exact List.mem_of_mem_erase hc

/-- C8 witness: the measurement column `value` is written to both artifacts. -/
theorem C8_witness :
    "value" ∈ preInterpArtifactCols ∧ "value" ∈ finalArtifactCols := by
  have hv : "value" ∈ finalArtifactCols := by decide
  exact ⟨C8_schema_minus_index.1 "value" hv, hv⟩

lemma filter_keys_length_le_one {R : List LocRow}
    (h : (R.map LocRow.s_id).Nodup) (k : ℤ) :
    (R.filter (fun r => r.s_id == k)).length ≤ 1 := by
  induction R with
  | nil => simp
  | cons r R' ih =>
      rw [List.map_cons, List.nodup_cons] at h
      by_cases hk : r.s_id == k
      · have hnone : R'.filter (fun r' => r'.s_id == k) = [] := by
          rw [List.filter_eq_nil_iff]
          intro r' hr' hq
          apply h.1
          rw [List.mem_map]
          refine ⟨r', hr', ?_⟩
          have h1 : r'.s_id = k := by simpa using hq
          have h2 : r.s_id = k := by simpa using hk
          rw [h1, h2]
        simp [List.filter_cons, hk, hnone]
      · simpa [List.filter_cons, hk] using ih h.2

lemma leftMerge_piece {R : List LocRow} (h : (R.map LocRow.s_id).Nodup) (m : MeasRow) :
    (match R.filter (fun r => r.s_id == m.sensor_id) with
      | [] => [(m, none)]
      | ms => ms.map (fun r => (m, some r)))
      = [(m, R.find? (fun r => r.s_id == m.sensor_id))] := by
  cases hf : R.filter (fun r => r.s_id == m.sensor_id) with
  | nil =>
      have : R.find? (fun r => r.s_id == m.sensor_id) = none := by
        rw [List.find?_eq_none]
        intro r hr
        have := List.filter_eq_nil_iff.mp hf r hr
        simpa using this
      simp [this]
  | cons r ms' =>
      have hle := filter_keys_length_le_one h m.sensor_id
      rw [hf] at hle
      have hms' : ms' = [] := by
        cases ms' with
        | nil => rfl
        | cons a b => simp at hle
      subst hms'
      have hfind : R.find? (fun r' => r'.s_id == m.sensor_id) = some r := by
        obtain ⟨p1, p2, hR, hp1, hpr, -⟩ := List.filter_eq_cons_iff.mp hf
        rw [List.find?_eq_some]
        exact ⟨hpr, p1, p2, hR, fun a ha => by simpa using hp1 a ha⟩
      simp [hfind]

/-- C3 counterexample: the left merge does NOT preserve cardinality for every
metadata table — with one measurement row and a metadata table holding two
rows with the same `s_id`, the merged output has two rows, not one. -/
theorem C3_counterexample :
    (leftMerge [⟨1, some 3⟩] [⟨1, 7, some "a", none⟩, ⟨1, 8, some "b", none⟩]).length ≠ 1 := by
  decide

/-- C3 amended: whenever the metadata table's `s_id` keys are distinct (which
holds in particular for an empty metadata table), the left merge pairs each
measurement row, in order, with its unique matching metadata row or with null
metadata, so the row count is preserved and every measurement row appears
exactly once. -/
theorem C3_join_cardinality (L : List MeasRow) (R : List LocRow)
    (h : (R.map LocRow.s_id).Nodup) :
    leftMerge L R = L.map (fun m => (m, R.find? (fun r => r.s_id == m.sensor_id)))
    ∧ (leftMerge L R).length = L.length
    ∧ (leftMerge L R).map Prod.fst = L := by
  have hmain : leftMerge L R
      = L.map (fun m => (m, R.find? (fun r => r.s_id == m.sensor_id))) := by
    induction L with
    | nil => rfl
    | cons m L' ih =>
        rw [leftMerge] at ih ⊢
        rw [List.flatMap_cons, ih, List.map_cons, leftMerge_piece h m]
        rfl
  refine ⟨hmain, ?_, ?_⟩
  · rw [hmain, List.length_map]
  · rw [hmain, List.map_map]
    have hc : (Prod.fst ∘ fun m : MeasRow => (m, R.find? (fun r => r.s_id == m.sensor_id))) = id := rfl
    rw [hc, List.map_id]

/-- C3 witness: with two measurement rows and a one-row metadata table, the
merge keeps both rows, enriching the matching one and null-filling the other. -/
theorem C3_witness :
    leftMerge [⟨1, some 3⟩, ⟨2, some 4⟩] [⟨1, 7, some "x", none⟩]
      = [(⟨1, some 3⟩, some ⟨1, 7, some "x", none⟩), (⟨2, some 4⟩, none)]
    ∧ (leftMerge [⟨1, some 3⟩, ⟨2, some 4⟩] [⟨1, 7, some "x", none⟩]).length = 2 := by
  have h := C3_join_cardinality [⟨1, some 3⟩, ⟨2, some 4⟩] [⟨1, 7, some "x", none⟩] (by decide)
  refine ⟨?_, ?_⟩
  · rw [h.1]
    rfl
  · rw [h.2.1]
    rfl

lemma presentValues_eq (rows : List (ℤ × Option ℚ)) (d : ℤ) :
    (rows.filterMap (fun p => if p.1 = d then some p.2 else none)).filterMap id
      = presentValues rows d := by
  induction rows with
  | nil => rfl
  | cons p rest ih =>
      by_cases hp : p.1 = d
      · cases hv : p.2 with
        | none => simp [List.filterMap_cons, hp, hv, presentValues, ih, presentValues] at ih ⊢
        | some w => simp [List.filterMap_cons, hp, hv, presentValues, ih] at ih ⊢
      · simp [List.filterMap_cons, hp, presentValues, ih] at ih ⊢

/-- C10: the per-station deduplication aggregates each date with a mean that
skips missing entries: the aggregate is missing exactly when every entry for
that date is missing, otherwise it is the mean of only the present values —
in particular `{20, missing}` on one date collapses to `20`. -/
theorem C10_dedup_mean_skips_missing :
    (∀ (rows : List (ℤ × Option ℚ)) (d : ℤ) (v : Option ℚ),
        (d, v) ∈ dedupByDate rows →
          ((v = none ↔ presentValues rows d = [])
            ∧ (presentValues rows d ≠ [] →
                v = some ((presentValues rows d).sum
                  / ((presentValues rows d).length : ℚ)))))
    ∧ dedupByDate [((5 : ℤ), some (20 : ℚ)), (5, none)] = [(5, some 20)] := by
  constructor
  · intro rows d v hv
    rw [dedupByDate, List.mem_map] at hv
    obtain ⟨d', _, hd'⟩ := hv
    have hd : d' = d := congrArg Prod.fst hd'
    subst hd
    have hveq : meanSkipNA (rows.filterMap (fun p => if p.1 = d' then some p.2 else none)) = v :=
      congrArg Prod.snd hd'
    simp only [meanSkipNA, presentValues_eq] at hveq
    by_cases hemp : presentValues rows d' = []
    · rw [hemp] at hveq
      simp only [List.isEmpty_nil, if_true] at hveq
      subst hveq
      exact ⟨by simp [hemp], fun hne => absurd hemp hne⟩
    · have hne : (presentValues rows d').isEmpty = false := by
        simpa [List.isEmpty_iff] using hemp
      rw [hne] at hveq
      simp only [Bool.false_eq_true, if_false] at hveq
      subst hveq
      exact ⟨by simp [hemp], fun _ => rfl⟩
  · have hm : meanSkipNA [some (20 : ℚ), none] = some 20 := by
      simp [meanSkipNA]
    have hd : sortedUniqueDates [((5 : ℤ), some (20 : ℚ)), (5, none)] = [5] := rfl
    rw [dedupByDate, hd]
    simp only [List.map_cons, List.map_nil, List.filterMap_cons]
    norm_num [meanSkipNA, List.filterMap_cons]

/-- C10 witness: on a date with entries `{20, missing}` the aggregate equals
the mean over only the present values. -/
theorem C10_witness :
    presentValues [((5 : ℤ), some (20 : ℚ)), (5, none)] 5 ≠ []
    ∧ some (20 : ℚ)
        = some ((presentValues [((5 : ℤ), some (20 : ℚ)), (5, none)] 5).sum
            / ((presentValues [((5 : ℤ), some (20 : ℚ)), (5, none)] 5).length : ℚ)) := by
  have h := C10_dedup_mean_skips_missing
  have hmem : ((5 : ℤ), (some (20 : ℚ) : Option ℚ))
      ∈ dedupByDate [((5 : ℤ), some (20 : ℚ)), (5, none)] := by
    rw [h.2]
    simp
  have hne : presentValues [((5 : ℤ), some (20 : ℚ)), (5, none)] 5 ≠ [] := by
    simp [presentValues, List.filterMap_cons]
  exact ⟨hne, (h.1 _ 5 _ hmem).2 hne⟩

lemma dedupByDate_map_fst (rows : List (ℤ × Option ℚ)) :
    (dedupByDate rows).map Prod.fst = sortedUniqueDates rows := by
  rw [dedupByDate, List.map_map]
  have hc : (Prod.fst ∘ fun d : ℤ =>
      (d, meanSkipNA (rows.filterMap (fun p => if p.1 = d then some p.2 else none)))) = id := rfl
  rw [hc, List.map_id]

lemma sortedUniqueDates_sorted (rows : List (ℤ × Option ℚ)) :
    (sortedUniqueDates rows).Sorted (· ≤ ·) :=
  List.sorted_insertionSort _ _

lemma sortedUniqueDates_mem (rows : List (ℤ × Option ℚ)) (d : ℤ) :
    d ∈ sortedUniqueDates rows ↔ d ∈ rows.map Prod.fst := by
  rw [sortedUniqueDates,
    (List.perm_insertionSort (· ≤ ·) (rows.map Prod.fst).dedup).mem_iff, List.mem_dedup]

lemma sortedUniqueDates_ne_nil {rows : List (ℤ × Option ℚ)} (h : rows ≠ []) :
    sortedUniqueDates rows ≠ [] := by
  intro hnil
  obtain ⟨p, hp⟩ := List.exists_mem_of_ne_nil rows h
  have hmem : p.1 ∈ sortedUniqueDates rows :=
    (sortedUniqueDates_mem _ _).mpr (List.mem_map_of_mem _ hp)
  rw [hnil] at hmem
  exact absurd hmem (List.not_mem_nil _)

lemma sorted_le_getLast? {l : List ℤ} (hs : l.Sorted (· ≤ ·)) :
    ∀ x ∈ l, ∀ y, l.getLast? = some y → x ≤ y := by
  induction l with
  | nil => intro x hx; simp at hx
  | cons a l' ih =>
      intro x hx y hy
      cases l' with
      | nil =>
          simp only [List.mem_singleton] at hx
          simp only [List.getLast?_singleton, Option.some.injEq] at hy
          subst hx
          subst hy
          exact le_refl _
      | cons b l'' =>
          rw [List.getLast?_cons_cons] at hy
          rcases List.mem_cons.mp hx with rfl | hx'
          · exact List.rel_of_sorted_cons hs y (List.mem_of_getLast?_eq_some hy)
          · exact ih hs.of_cons x hx' y hy

lemma count_range_map (lo hi d : ℤ) :
    ((List.range (hi - lo + 1).toNat).map (fun (i : ℕ) => lo + (i : ℤ))).count d
      = if lo ≤ d ∧ d ≤ hi then 1 else 0 := by
  have hnodup : ((List.range (hi - lo + 1).toNat).map (fun (i : ℕ) => lo + (i : ℤ))).Nodup := by
    refine List.Nodup.map ?_ (List.nodup_range _)
    intro i j hij
    simp only at hij
    omega
  have hmem : d ∈ (List.range (hi - lo + 1).toNat).map (fun (i : ℕ) => lo + (i : ℤ))
      ↔ (lo ≤ d ∧ d ≤ hi) := by
    simp only [List.mem_map, List.mem_range]
    constructor
    · rintro ⟨i, hi', rfl⟩
      constructor <;> omega
    · intro hd
      refine ⟨(d - lo).toNat, ?_, ?_⟩ <;> omega
  by_cases hd : lo ≤ d ∧ d ≤ hi
  · rw [if_pos hd]
    exact List.count_eq_one_of_mem hnodup (hmem.mpr hd)
  · rw [if_neg hd]
    exact List.count_eq_zero_of_not_mem (fun hc => hd (hmem.mp hc))

lemma asfreqD_eq {l : List (ℤ × Option ℚ)} {p0 p1 : ℤ × Option ℚ}
    (hh : l.head? = some p0) (hl : l.getLast? = some p1) :
    asfreqD l = if p0.1 ≤ p1.1 then
        (List.range (p1.1 - p0.1 + 1).toNat).map
          (fun (i : ℕ) => (p0.1 + (i : ℤ), lookupDate (p0.1 + (i : ℤ)) l))
      else [] := by
  simp only [asfreqD]
  rw [hh, hl]

/-- C7: for a station with at least one row, the densified per-station series
(dedup by date, then daily reindex) has exactly one row per calendar day
between the station's minimum and maximum observed date — no gaps, no
duplicate dates — and no rows outside that range. -/
theorem C7_densification (rows : List (ℤ × Option ℚ)) (h : rows ≠ []) :
    ∃ lo hi : ℤ, lo ∈ rows.map Prod.fst ∧ hi ∈ rows.map Prod.fst
      ∧ (∀ d ∈ rows.map Prod.fst, lo ≤ d ∧ d ≤ hi)
      ∧ ∀ d : ℤ, ((asfreqD (dedupByDate rows)).map Prod.fst).count d
          = if lo ≤ d ∧ d ≤ hi then 1 else 0 := by
  obtain ⟨d0, D', hD⟩ := List.exists_cons_of_ne_nil (sortedUniqueDates_ne_nil h)
  have hsorted := sortedUniqueDates_sorted rows
  have hglsome : (sortedUniqueDates rows).getLast? = some ((d0 :: D').getLast (by simp)) := by
    rw [hD]
    exact List.getLast?_eq_getLast _ (by simp)
  set dl := (d0 :: D').getLast (by simp) with hdl
  have hlo_mem : d0 ∈ rows.map Prod.fst :=
    (sortedUniqueDates_mem _ _).mp (by rw [hD]; simp)
  have hhi_mem : dl ∈ rows.map Prod.fst :=
    (sortedUniqueDates_mem _ _).mp (List.mem_of_getLast?_eq_some hglsome)
  have hbound : ∀ d ∈ rows.map Prod.fst, d0 ≤ d ∧ d ≤ dl := by
    intro d hd
    have hds : d ∈ sortedUniqueDates rows := (sortedUniqueDates_mem _ _).mpr hd
    constructor
    · rw [hD] at hds
      rcases List.mem_cons.mp hds with rfl | hds'
      · exact le_refl _
      · exact List.rel_of_sorted_cons (hD ▸ hsorted) d hds'
    · exact sorted_le_getLast? hsorted d hds dl hglsome
  have hlohi : d0 ≤ dl := (hbound dl hhi_mem).1
  refine ⟨d0, dl, hlo_mem, hhi_mem, hbound, ?_⟩
  intro d
  have hhead : (dedupByDate rows).head? = some
      (d0, meanSkipNA (rows.filterMap (fun p => if p.1 = d0 then some p.2 else none))) := by
    rw [dedupByDate, hD]
    rfl
  have hlast : (dedupByDate rows).getLast? = some
      (dl, meanSkipNA (rows.filterMap (fun p => if p.1 = dl then some p.2 else none))) := by
    rw [dedupByDate, List.getLast?_map, hglsome]
    rfl
  rw [asfreqD_eq hhead hlast]
  rw [if_pos hlohi]
  have hfst : ((List.range (dl - d0 + 1).toNat).map
        (fun (i : ℕ) =>
          ((d0 + (i : ℤ), lookupDate (d0 + (i : ℤ)) (dedupByDate rows)) : ℤ × Option ℚ))).map
          Prod.fst
      = (List.range (dl - d0 + 1).toNat).map (fun (i : ℕ) => d0 + (i : ℤ)) := by
    rw [List.map_map]
    rfl
  rw [hfst, count_range_map]

/-- C7 witness: a station observed on days 1 and 3 densifies to exactly one
row for each of days 1, 2, 3 and none elsewhere. -/
theorem C7_witness :
    ∃ lo hi : ℤ,
      lo ∈ ([((1 : ℤ), some (10 : ℚ)), (3, some 30)].map Prod.fst)
      ∧ hi ∈ ([((1 : ℤ), some (10 : ℚ)), (3, some 30)].map Prod.fst)
      ∧ (∀ d ∈ ([((1 : ℤ), some (10 : ℚ)), (3, some 30)].map Prod.fst), lo ≤ d ∧ d ≤ hi)
      ∧ ∀ d : ℤ,
          ((asfreqD (dedupByDate [((1 : ℤ), some (10 : ℚ)), (3, some 30)])).map Prod.fst).count d
            = if lo ≤ d ∧ d ≤ hi then 1 else 0 :=
  C7_densification [((1 : ℤ), some (10 : ℚ)), (3, some 30)] (by simp)

end AQI
